/-
  Verification of the nexuflex client core (history, aliases, completion,
  session) against its design documentation.

  The Go sources are embedded shallowly: each Go function below is a Lean
  function of the same shape; Go maps become association lists with the
  corresponding lookup/insert/delete operations, Go slices become lists,
  and effectful calls (the gRPC stream, the completion fallback handler)
  become explicit inputs with their observable calls returned as data.
-/
import Mathlib

namespace Nexuflex

/-! ### Go string primitives

Strings are modelled on `List Char`.  `goIsSpace` covers the white-space
characters Go's `unicode.IsSpace` recognises in the Latin-1 range, which is
the range the client ever feeds it. -/

def goIsSpace (c : Char) : Bool :=
  c = ' ' || c = '\t' || c = '\n' || c = '\x0b' || c = '\x0c' || c = '\r' ||
  c = '\x85' || c = '\xa0'

/-- Left part of Go `strings.TrimSpace`: drop leading white space. -/
def trimLeftChars (l : List Char) : List Char :=
  l.dropWhile goIsSpace

/-- Right part of Go `strings.TrimSpace`: drop trailing white space. -/
def trimRightChars (l : List Char) : List Char :=
  (l.reverse.dropWhile goIsSpace).reverse

/-- Go `strings.TrimSpace`. -/
def trimSpace (s : String) : String :=
  ⟨trimRightChars (trimLeftChars s.data)⟩

/-- Go `strings.SplitN(s, sep, 2)` on a one-character separator:
`(before, some after)` when the separator occurs, `(s, none)` otherwise. -/
def splitOnFirst (sep : Char) : List Char → List Char × Option (List Char)
  | [] => ([], none)
  | c :: cs =>
    if c = sep then ([], some cs)
    else
      let r := splitOnFirst sep cs
      (c :: r.1, r.2)

/-- Go `strings.Contains(s, c)` for a one-character needle. -/
def containsChar (s : String) (c : Char) : Bool :=
  s.data.contains c

/-! ### Go maps as association lists

A Go `map[string]string` is an association list whose keys are distinct;
`mapSet` (the Go assignment `m[k] = v`) overwrites an existing key in place
and otherwise appends, so that insertion order is preserved the way the
loaders observe it. -/

abbrev AliasMap := List (String × String)

def mapLookup (m : AliasMap) (k : String) : Option String :=
  match m with
  | [] => none
  | (k₀, v₀) :: rest => if k₀ = k then some v₀ else mapLookup rest k

def mapSet (m : AliasMap) (k v : String) : AliasMap :=
  match m with
  | [] => [(k, v)]
  | (k₀, v₀) :: rest =>
    if k₀ = k then (k, v) :: rest else (k₀, v₀) :: mapSet rest k v

def mapErase (m : AliasMap) (k : String) : AliasMap :=
  m.filter (fun p => p.1 ≠ k)

/-! ### aliases.go — `AliasManager` -/

structure AliasManager where
  aliases : AliasMap
  maxCount : Nat
deriving Repr, DecidableEq

def NewAliasManager (maxCount : Nat) : AliasManager :=
  { aliases := [], maxCount := maxCount }

/-- `AliasManager.AddAlias`: capacity check, then name validation
(no space, no period), then duplicate check, then insert. -/
def AliasManager.AddAlias (am : AliasManager) (aliasName command : String) :
    Except String AliasManager :=
  if am.aliases.length ≥ am.maxCount then
    .error "maximum number of aliases reached"
  else if containsChar aliasName ' ' || containsChar aliasName '.' then
    .error "alias cannot contain spaces or periods"
  else if (mapLookup am.aliases aliasName).isSome then
    .error "an alias with this name already exists"
  else
    .ok { am with aliases := mapSet am.aliases aliasName command }

/-- `AliasManager.RemoveAlias`. -/
def AliasManager.RemoveAlias (am : AliasManager) (aliasName : String) :
    Except String AliasManager :=
  if (mapLookup am.aliases aliasName).isSome then
    .ok { am with aliases := mapErase am.aliases aliasName }
  else
    .error "no alias with this name found"

/-- The byte loop of `LoadAliases`/`Load`: split the file content on
newlines, drop every CR, and keep the non-empty lines (the final line
needs no trailing newline). -/
def goSplitLines (content : String) : List String :=
  let step := fun (acc : List String × List Char) (c : Char) =>
    if c = '\n' then
      (if acc.2 ≠ [] then acc.1 ++ [⟨acc.2⟩] else acc.1, [])
    else if c = '\r' then acc
    else (acc.1, acc.2 ++ [c])
  let r := content.data.foldl step ([], [])
  if r.2 ≠ [] then r.1 ++ [⟨r.2⟩] else r.1

/-- One line of the alias file: `strings.SplitN(line, "=", 2)` must yield
two parts with a non-empty name. -/
def parseAliasLine (line : String) : Option (String × String) :=
  match splitOnFirst '=' line.data with
  | (_, none) => none
  | (name, some value) =>
    if name ≠ [] then some (⟨name⟩, ⟨value⟩) else none

/-- The insertion fold of `LoadAliases`: each parsed record is stored only
while the table is below `maxCount`. -/
def loadFold (maxCount : Nat) (m : AliasMap) : List (String × String) → AliasMap
  | [] => m
  | (name, value) :: rest =>
    if m.length < maxCount then loadFold maxCount (mapSet m name value) rest
    else loadFold maxCount m rest

/-- `AliasManager.LoadAliases` applied to a file content: clears the table
and replays every well-formed `name=command` line through the capacity
check. -/
def AliasManager.LoadAliases (am : AliasManager) (content : String) : AliasManager :=
  { am with
    aliases := loadFold am.maxCount [] ((goSplitLines content).filterMap parseAliasLine) }

/-- `AliasManager.ExpandCommand`: trim, split at the first space, replace
an aliased first word, keep the rest verbatim. -/
def AliasManager.ExpandCommand (am : AliasManager) (command : String) : String :=
  let command := trimSpace command
  match splitOnFirst ' ' command.data with
  | (firstWord, rest) =>
    match mapLookup am.aliases ⟨firstWord⟩ with
    | some expandedCommand =>
      match rest with
      | some r => expandedCommand ++ " " ++ ⟨r⟩
      | none => expandedCommand
    | none => command

/-- Go `strings.ToLower`, character by character (`Char.toLower` handles
the ASCII range the reserved keywords live in). -/
def goToLower (s : String) : String :=
  ⟨s.data.map Char.toLower⟩

/-- `IsReservedKeyword` from aliases.go. -/
def IsReservedKeyword (word : String) : Bool :=
  ["help", "login", "logout", "alias", "unalias", "exit", "quit", "clear",
   "history", "use", "connect", "disconnect", "status"].contains (goToLower word)

/-! #### Alias-table operation sequences

The mutating operations a program run performs on one `AliasManager`;
failed operations leave the table untouched (the Go methods return an
error without assigning). -/

inductive AliasOp where
  | add (name command : String)
  | remove (name : String)
  | load (content : String)
deriving Repr, DecidableEq

def AliasOp.isLoad : AliasOp → Bool
  | .load _ => true
  | _ => false

def applyAliasOp (am : AliasManager) : AliasOp → AliasManager
  | .add n c =>
    match am.AddAlias n c with
    | .ok am' => am'
    | .error _ => am
  | .remove n =>
    match am.RemoveAlias n with
    | .ok am' => am'
    | .error _ => am
  | .load content => am.LoadAliases content

def runAliasOps (am : AliasManager) (ops : List AliasOp) : AliasManager :=
  ops.foldl applyAliasOp am

/-! ### commands.go — `CommandHistory`

`currentIndex` is a Go `int` (it starts at `-1`), so it is an `Int` here. -/

structure CommandHistory where
  entries : List String
  maxEntries : Nat
  currentIndex : Int
  savePath : String
deriving Repr, DecidableEq

def NewCommandHistory (maxEntries : Nat) : CommandHistory :=
  { entries := [], maxEntries := maxEntries, currentIndex := -1, savePath := "" }

/-- `CommandHistory.Add`: skip blank input and adjacent duplicates; append,
evict from the front past capacity, and park the index past the end. -/
def CommandHistory.Add (h : CommandHistory) (command : String) : CommandHistory :=
  let command := trimSpace command
  if command = "" then h
  else if h.entries.length > 0 ∧ h.entries.getLast? = some command then h
  else
    let entries := h.entries ++ [command]
    let entries :=
      if entries.length > h.maxEntries then
        entries.drop (entries.length - h.maxEntries)
      else entries
    { h with entries := entries, currentIndex := (entries.length : Int) }

/-- `CommandHistory.Previous`: result flag and entry, plus the new state. -/
def CommandHistory.Previous (h : CommandHistory) :
    (String × Bool) × CommandHistory :=
  if h.entries.length = 0 ∨ h.currentIndex ≤ 0 then (("", false), h)
  else
    let i := h.currentIndex - 1
    (((h.entries.get? i.toNat).getD "", true), { h with currentIndex := i })

/-- `CommandHistory.Next`: result flag and entry, plus the new state; moving
onto the past-the-end position succeeds with the empty string. -/
def CommandHistory.Next (h : CommandHistory) :
    (String × Bool) × CommandHistory :=
  if h.entries.length = 0 ∨ h.currentIndex ≥ (h.entries.length : Int) then
    (("", false), h)
  else
    let i := h.currentIndex + 1
    if i = (h.entries.length : Int) then (("", true), { h with currentIndex := i })
    else (((h.entries.get? i.toNat).getD "", true), { h with currentIndex := i })

/-- `CommandHistory.ResetNavigation`. -/
def CommandHistory.ResetNavigation (h : CommandHistory) : CommandHistory :=
  { h with currentIndex := (h.entries.length : Int) }

/-- State after `n` calls of `Previous` (results discarded). -/
def prevN (h : CommandHistory) : Nat → CommandHistory
  | 0 => h
  | n + 1 => (prevN h n).Previous.2

/-- State after `n` calls of `Next` (results discarded). -/
def nextN (h : CommandHistory) : Nat → CommandHistory
  | 0 => h
  | n + 1 => (nextN h n).Next.2

/-! ### commands.go — `CommandProcessor` -/

structure CommandProcessor where
  localAliases : AliasMap
deriving Repr, DecidableEq

def NewCommandProcessor : CommandProcessor :=
  { localAliases := [] }

/-- `CommandProcessor.ProcessCommand`: trim, then optionally expand a local
alias on the first word. -/
def CommandProcessor.ProcessCommand (p : CommandProcessor) (command : String)
    (useLocalAliases : Bool) : String :=
  let command := trimSpace command
  if useLocalAliases then
    match splitOnFirst ' ' command.data with
    | (firstWord, rest) =>
      match mapLookup p.localAliases ⟨firstWord⟩ with
      | some expandedCommand =>
        match rest with
        | some r => expandedCommand ++ " " ++ ⟨r⟩
        | none => expandedCommand
      | none => command
  else command

/-! ### client.go — `Client`

The state a `Client` value owns: the gRPC connection handle and stub (set
and cleared together, so one `connected` flag), the session token, the
stored server identity, and the last used service context.  Each RPC's
network outcome is an explicit input: `Except e r` is a transport error or
a well-formed response. -/

structure ServerInfo where
  address : String
  port : Int
  shortName : String
  version : String
  tlsEnabled : Bool
deriving Repr, DecidableEq

structure Client where
  connected : Bool
  sessionToken : String
  serverInfo : Option ServerInfo
  lastServiceUsed : String
deriving Repr, DecidableEq

/-- `NewClient`: no connection, empty token, no server identity, empty
service context. -/
def NewClient : Client :=
  { connected := false, sessionToken := "", serverInfo := none,
    lastServiceUsed := "" }

structure LoginResponse where
  success : Bool
  errorMessage : String
  sessionToken : String
  displayName : String
deriving Repr, DecidableEq

/-- `Client.Login`: precondition check, then the RPC outcome; only an
accepted response stores the session token. -/
def Client.Login (c : Client) (outcome : Except String LoginResponse) :
    Except String Unit × Client :=
  if ¬ c.connected then (.error "not connected to server", c)
  else
    match outcome with
    | .error e => (.error ("login request failed: " ++ e), c)
    | .ok resp =>
      if ¬ resp.success then
        (.error ("login failed: " ++ resp.errorMessage), c)
      else
        (.ok (), { c with sessionToken := resp.sessionToken })

/-- `Client.Close`: only when a connection exists does it tear down and
clear the handle, the stub, the token and the server identity. -/
def Client.Close (c : Client) : Client :=
  if c.connected then
    { c with connected := false, sessionToken := "", serverInfo := none }
  else c

/-- `Client.SetLastServiceUsed` (the local `use` command path). -/
def Client.SetLastServiceUsed (c : Client) (service : String) : Client :=
  { c with lastServiceUsed := service }

/-! ### client.go — `ExecuteStreamingCommand`

The stream is the list of `Recv` results before EOF: each element is a
transport error or an output event.  The run returns the strings handed to
the output sink, in order, and the overall result. -/

inductive OutputKind where
  | TEXT
  | STATUS_UPDATE
  | ERROR
  | COMPLETION
deriving Repr, DecidableEq

structure CommandOutput where
  kind : OutputKind
  content : String
  progressPercent : Int
deriving Repr, DecidableEq

/-- What one received event hands to the output sink (`onOutputReceived`):
status updates are only logged, errors and completions are prefixed. -/
def emitOutput (out : CommandOutput) : List String :=
  match out.kind with
  | .TEXT => [out.content]
  | .STATUS_UPDATE => []
  | .ERROR => ["Error: " ++ out.content]
  | .COMPLETION => ["Completed: " ++ out.content]

/-- The `Recv` loop of `ExecuteStreamingCommand`: EOF (end of the list)
ends without error; a transport error is returned at once and stops
consumption. -/
def processStream : List (Except String CommandOutput) →
    List String × Except String Unit
  | [] => ([], .ok ())
  | .error e :: _ => ([], .error ("error receiving streaming data: " ++ e))
  | .ok out :: rest =>
    let r := processStream rest
    (emitOutput out ++ r.1, r.2)

/-- `Client.ExecuteStreamingCommand`: precondition, open-stream outcome,
then the receive loop. -/
def Client.ExecuteStreamingCommand (c : Client)
    (openOutcome : Except String (List (Except String CommandOutput))) :
    List String × Except String Unit :=
  if ¬ c.connected then ([], .error "not connected to server")
  else
    match openOutcome with
    | .error e => ([], .error ("streaming command execution failed: " ++ e))
    | .ok stream => processStream stream

/-! ### autocomplete.go — `AutoCompleter`

`localCommands` holds the keys of the Go `map[string]bool` in one
enumeration order; the fallback handler is an explicit input and `Complete`
additionally returns the list of texts it passed to that handler, so that
"does not consult the remote server" is an observable fact. -/

def cacheLookup (m : List (String × List String)) (k : String) :
    Option (List String) :=
  match m with
  | [] => none
  | (k₀, v₀) :: rest => if k₀ = k then some v₀ else cacheLookup rest k

def cacheSet (m : List (String × List String)) (k : String) (v : List String) :
    List (String × List String) :=
  match m with
  | [] => [(k, v)]
  | (k₀, v₀) :: rest =>
    if k₀ = k then (k, v) :: rest else (k₀, v₀) :: cacheSet rest k v

structure AutoCompleter where
  localCommands : List String
  cachedSuggestions : List (String × List String)
deriving Repr, DecidableEq

/-- The standard commands registered by `NewAutoCompleter`. -/
def standardLocalCommands : List String :=
  ["help", "?", "exit", "quit", "clear", "cls", "connect", "disconnect",
   "login", "logout", "alias", "unalias", "history", "use"]

def NewAutoCompleter : AutoCompleter :=
  { localCommands := standardLocalCommands, cachedSuggestions := [] }

/-- Go `strings.HasPrefix(s, pre)`; on valid UTF-8 the byte test agrees
with the character-list test used here. -/
def goHasPref (pre s : String) : Bool :=
  pre.data.isPrefixOf s.data

/-- One fallback-handler (remote `AutoComplete`) result: suggestions,
common prefix, and whether the call returned an error. -/
structure FallbackResult where
  suggestions : List String
  commonPref : String
  isErr : Bool
deriving Repr, DecidableEq

/-- The byte loop of the source's findCommonPrefix on two strings. -/
def commonPrefTwo : List Char → List Char → List Char
  | a :: as, b :: bs => if a = b then a :: commonPrefTwo as bs else []
  | _, _ => []

/-- findCommonPrefix from autocomplete.go: the longest shared leading
substring of all the given strings. -/
def findCommonPref (xs : List String) : String :=
  match xs with
  | [] => ""
  | [x] => x
  | x :: rest => ⟨rest.foldl (fun pref s => commonPrefTwo pref s.data) x.data⟩

/-- The tail of `Complete` (reached when no local match short-circuits):
cache, then the fallback handler, caching an error-free non-empty answer.
Returns `(suggestions, commonPref)`, the new completer state, and the texts
sent to the fallback handler. -/
def completeRemote (ac : AutoCompleter)
    (fallback : Option (String → FallbackResult)) (text : String) :
    (List String × String) × AutoCompleter × List String :=
  match fallback with
  | none => (([], ""), ac, [])
  | some f =>
    match cacheLookup ac.cachedSuggestions text with
    | some suggestions => ((suggestions, findCommonPref suggestions), ac, [])
    | none =>
      let r := f text
      if r.isErr = false ∧ r.suggestions.length > 0 then
        ((r.suggestions, r.commonPref),
         { ac with cachedSuggestions := cacheSet ac.cachedSuggestions text r.suggestions },
         [text])
      else (([], ""), ac, [text])

/-- `AutoCompleter.Complete`: trim; empty text returns the local vocabulary
plus the remote suggestions for the empty prefix; text without a service
separator first tries a local prefix match, which short-circuits the
remote path when non-empty. -/
def AutoCompleter.Complete (ac : AutoCompleter)
    (fallback : Option (String → FallbackResult)) (text : String) :
    (List String × String) × AutoCompleter × List String :=
  let text := trimSpace text
  if text = "" then
    let suggestions := ac.localCommands
    match fallback with
    | some f => ((suggestions ++ (f text).suggestions, ""), ac, [text])
    | none => ((suggestions, ""), ac, [])
  else
    if containsChar text '.' = false then
      let localSuggestions := ac.localCommands.filter (fun cmd => goHasPref text cmd)
      if localSuggestions.length > 0 then
        ((localSuggestions, findCommonPref localSuggestions), ac, [])
      else completeRemote ac fallback text
    else completeRemote ac fallback text

/-! ## Theorems -/

/-- C10: the two alias-expansion implementations are equivalent — with the
same alias map, `CommandProcessor.ProcessCommand` with local aliases
enabled returns exactly what `AliasManager.ExpandCommand` returns, on
every command string. -/
theorem processCommand_eq_expandCommand (p : CommandProcessor)
    (am : AliasManager) (h : p.localAliases = am.aliases) (command : String) :
    p.ProcessCommand command true = am.ExpandCommand command := by
  unfold CommandProcessor.ProcessCommand AliasManager.ExpandCommand
  rw [h]
  rfl

/-- Witness for C10 at a concrete alias map and command. -/
theorem processCommand_eq_expandCommand_witness :
    CommandProcessor.ProcessCommand { localAliases := [("foo", "bar baz")] }
        "foo rest" true =
      AliasManager.ExpandCommand { aliases := [("foo", "bar baz")], maxCount := 10 }
        "foo rest" :=
  processCommand_eq_expandCommand _ _ rfl "foo rest"

/-- C6 counterexample: `Close` does not restore the current service
context to its `NewClient` value — a client that recorded a service
context keeps it across `Close`, so the closed client differs from a
fresh one. -/
theorem close_keeps_service_context :
    ((NewClient.SetLastServiceUsed "finance").Close).lastServiceUsed = "finance" ∧
    NewClient.lastServiceUsed = "" ∧
    (NewClient.SetLastServiceUsed "finance").Close ≠ NewClient := by
  refine ⟨rfl, rfl, ?_⟩
  intro h
  exact absurd (congrArg Client.lastServiceUsed h) (by decide)

/-- C6 (amended): `Close` is idempotent and resets the connection handle,
the session token and the server identity to their `NewClient` values; the
current service context is left untouched.  The hypothesis is the session
invariant (a disconnected client holds no token and no server identity),
which every reachable state satisfies. -/
theorem close_resets_except_service_context (c : Client)
    (hinv : c.connected = true ∨ (c.sessionToken = "" ∧ c.serverInfo = none)) :
    c.Close.connected = false ∧ c.Close.sessionToken = "" ∧
    c.Close.serverInfo = none ∧
    c.Close.lastServiceUsed = c.lastServiceUsed ∧
    c.Close.Close = c.Close := by
  unfold Client.Close
  rcases hc : c.connected with _ | _
  · rcases hinv with hinv | hinv
    · exact absurd hinv (by simp [hc])
    · simp [hc, hinv.1, hinv.2]
  · simp [hc]

/-- Witness for C6 (amended) at a concrete connected client. -/
theorem close_resets_except_service_context_witness :
    (let c : Client :=
      ⟨true, "tok", some ⟨"localhost", 50051, "Local", "1.0.0", false⟩, "finance"⟩;
     c.Close.connected = false ∧ c.Close.sessionToken = "" ∧
     c.Close.serverInfo = none ∧
     c.Close.lastServiceUsed = c.lastServiceUsed ∧
     c.Close.Close = c.Close) :=
  close_resets_except_service_context _ (Or.inl rfl)

/-- C4: a well-formed login rejection on a connected client reports the
server-supplied reason and mutates no session state — the token stays
empty and the connection stays open — and a subsequent accepted login
stores the (non-empty) server-issued session token. -/
theorem login_rejection_preserves_state (c : Client) (r₁ r₂ : LoginResponse)
    (hconn : c.connected = true) (htok : c.sessionToken = "")
    (hrej : r₁.success = false) (hacc : r₂.success = true)
    (htok₂ : r₂.sessionToken ≠ "") :
    (c.Login (.ok r₁)).1 = .error ("login failed: " ++ r₁.errorMessage) ∧
    (c.Login (.ok r₁)).2 = c ∧
    (c.Login (.ok r₁)).2.sessionToken = "" ∧
    (c.Login (.ok r₁)).2.connected = true ∧
    ((c.Login (.ok r₁)).2.Login (.ok r₂)).1 = .ok () ∧
    ((c.Login (.ok r₁)).2.Login (.ok r₂)).2.sessionToken = r₂.sessionToken ∧
    ((c.Login (.ok r₁)).2.Login (.ok r₂)).2.sessionToken ≠ "" ∧
    ((c.Login (.ok r₁)).2.Login (.ok r₂)).2.connected = true := by
  simp [Client.Login, hconn, htok, hrej, hacc, htok₂]

/-- Witness for C4 at concrete credentials and responses. -/
theorem login_rejection_preserves_state_witness :
    (let c : Client := ⟨true, "", none, ""⟩;
     let r₁ : LoginResponse := ⟨false, "invalid credentials", "", ""⟩;
     let r₂ : LoginResponse := ⟨true, "", "session-123", "Bob"⟩;
     (c.Login (.ok r₁)).1 = .error ("login failed: " ++ r₁.errorMessage) ∧
     (c.Login (.ok r₁)).2 = c ∧
     (c.Login (.ok r₁)).2.sessionToken = "" ∧
     (c.Login (.ok r₁)).2.connected = true ∧
     ((c.Login (.ok r₁)).2.Login (.ok r₂)).1 = .ok () ∧
     ((c.Login (.ok r₁)).2.Login (.ok r₂)).2.sessionToken = r₂.sessionToken ∧
     ((c.Login (.ok r₁)).2.Login (.ok r₂)).2.sessionToken ≠ "" ∧
     ((c.Login (.ok r₁)).2.Login (.ok r₂)).2.connected = true) :=
  login_rejection_preserves_state _ _ _ rfl rfl rfl rfl (by decide)

/-! #### Streaming (C5) -/

/-- An error-free stream is consumed to EOF: every event's sink output is
emitted in order and the run ends without error. -/
theorem processStream_ok (events : List CommandOutput) :
    processStream (events.map .ok) = ((events.map emitOutput).flatten, .ok ()) := by
  induction events with
  | nil => rfl
  | cons e es ih => simp [processStream, ih]

/-- A mid-stream transport failure stops consumption: only the events
before it reach the sink, and the failure is the result. -/
theorem processStream_err (pre : List CommandOutput) (e : String)
    (post : List (Except String CommandOutput)) :
    processStream (pre.map .ok ++ .error e :: post) =
      ((pre.map emitOutput).flatten,
       .error ("error receiving streaming data: " ++ e)) := by
  induction pre with
  | nil => rfl
  | cons x xs ih => simp [processStream, ih]

/-- C5: on a connected client, every finite event stream is forwarded to
the output sink in server-emitted order; normal EOF ends without error; the
stream `[TEXT "a", STATUS_UPDATE "50%", TEXT "b", COMPLETION "done"]`
forwards exactly `"a"`, `"b"`, then a completion notice, in that order, and
returns without error; and a mid-stream transport failure is reported as a
failure and stops consumption. -/
theorem executeStreamingCommand_spec (c : Client) (hconn : c.connected = true) :
    (∀ events : List CommandOutput,
        c.ExecuteStreamingCommand (.ok (events.map .ok)) =
          ((events.map emitOutput).flatten, .ok ())) ∧
    c.ExecuteStreamingCommand
        (.ok [.ok ⟨.TEXT, "a", 0⟩, .ok ⟨.STATUS_UPDATE, "50%", 50⟩,
              .ok ⟨.TEXT, "b", 0⟩, .ok ⟨.COMPLETION, "done", 100⟩]) =
      (["a", "b", "Completed: done"], .ok ()) ∧
    (∀ (pre : List CommandOutput) (e : String)
        (post : List (Except String CommandOutput)),
        c.ExecuteStreamingCommand (.ok (pre.map .ok ++ .error e :: post)) =
          ((pre.map emitOutput).flatten,
           .error ("error receiving streaming data: " ++ e))) := by
  refine ⟨fun events => ?_, ?_, fun pre e post => ?_⟩
  · simp [Client.ExecuteStreamingCommand, hconn, processStream_ok]
  · simp [Client.ExecuteStreamingCommand, hconn]
    rfl
  · simp [Client.ExecuteStreamingCommand, hconn, processStream_err]

/-- Witness for C5: the specified four-event stream on a concrete
connected client. -/
theorem executeStreamingCommand_spec_witness :
    (let c : Client := ⟨true, "tok", none, ""⟩;
     c.ExecuteStreamingCommand
        (.ok [.ok ⟨.TEXT, "a", 0⟩, .ok ⟨.STATUS_UPDATE, "50%", 50⟩,
              .ok ⟨.TEXT, "b", 0⟩, .ok ⟨.COMPLETION, "done", 100⟩]) =
      (["a", "b", "Completed: done"], .ok ())) :=
  (executeStreamingCommand_spec _ rfl).2.1

/-! #### Alias expansion (C1) -/

/-- `splitOnFirst` in spec vocabulary: the first component is the text
before the first separator, the second the text after it (when present). -/
theorem splitOnFirst_spec (sep : Char) (l : List Char) :
    splitOnFirst sep l =
      (l.takeWhile (fun c => c != sep),
       match l.dropWhile (fun c => c != sep) with
       | [] => none
       | _ :: rest => some rest) := by
  induction l with
  | nil => rfl
  | cons c cs ih =>
    by_cases hc : c = sep
    · subst hc
      simp [splitOnFirst]
    · simp [splitOnFirst, hc, ih, List.takeWhile_cons, List.dropWhile_cons]

theorem dropWhile_ne_head (sep : Char) (l rest : List Char) (c : Char)
    (h : l.dropWhile (fun c => c != sep) = c :: rest) : c = sep := by
  induction l with
  | nil => simp at h
  | cons a as ih =>
    rw [List.dropWhile_cons] at h
    by_cases ha : a = sep
    · simp [ha] at h
      exact h.1.symm
    · simp [ha] at h
      exact ih h

theorem string_mk_append (a b : List Char) :
    (⟨a ++ b⟩ : String) = (⟨a⟩ : String) ++ (⟨b⟩ : String) := rfl

theorem string_append_cons (s : String) (c : Char) (l : List Char) :
    s ++ (⟨c :: l⟩ : String) = s ++ (⟨[c]⟩ : String) ++ (⟨l⟩ : String) := by
  cases s with
  | mk d =>
    show String.mk (d ++ (c :: l)) = String.mk ((d ++ [c]) ++ l)
    rw [List.append_assoc]
    rfl

theorem string_append_mk_nil (s : String) : s ++ (⟨[]⟩ : String) = s := by
  cases s with
  | mk d => show String.mk (d ++ []) = String.mk d
            rw [List.append_nil]

/-- C1 counterexample: with an empty alias table the first token `x` of
the line `"x "` matches no stored alias, yet `Expand` does not return the
line unchanged (it trims it). -/
theorem expand_not_identity_on_unaliased :
    mapLookup (NewAliasManager 10).aliases "x" = none ∧
    (NewAliasManager 10).ExpandCommand "x " ≠ "x " := by decide

/-- C1 (amended): `Expand` first trims the line and splits the trimmed
line at the first space character; if the text before the first space
matches a stored alias, the result is the stored expansion followed by the
trimmed line's remainder from the first space on, verbatim (so
`Expand("foo rest") = "bar baz rest"` and `Expand("foo") = "bar baz"`
under alias `foo → bar baz`); otherwise the result is the trimmed line. -/
theorem expandCommand_spec (am : AliasManager) (line : String) :
    (∀ exp,
        mapLookup am.aliases
            ⟨(trimSpace line).data.takeWhile (fun c => c != ' ')⟩ = some exp →
        am.ExpandCommand line =
          exp ++ ⟨(trimSpace line).data.dropWhile (fun c => c != ' ')⟩) ∧
    (mapLookup am.aliases
        ⟨(trimSpace line).data.takeWhile (fun c => c != ' ')⟩ = none →
      am.ExpandCommand line = trimSpace line) ∧
    AliasManager.ExpandCommand ⟨[("foo", "bar baz")], 10⟩ "foo rest" =
      "bar baz rest" ∧
    AliasManager.ExpandCommand ⟨[("foo", "bar baz")], 10⟩ "foo" = "bar baz" := by
  refine ⟨?_, ?_, by decide, by decide⟩
  · intro exp hexp
    unfold AliasManager.ExpandCommand
    simp only [splitOnFirst_spec]
    cases hdrop : (trimSpace line).data.dropWhile (fun c => c != ' ') with
    | nil =>
      simp only [hdrop, hexp]
      exact (string_append_mk_nil exp).symm
    | cons c rest =>
      have hc : c = ' ' := dropWhile_ne_head ' ' _ _ _ hdrop
      subst hc
      simp only [hdrop, hexp]
      have hsp : (" " : String) = (⟨[' ']⟩ : String) := rfl
      rw [hsp]
      exact (string_append_cons exp ' ' rest).symm
  · intro hnone
    unfold AliasManager.ExpandCommand
    simp only [splitOnFirst_spec]
    cases hdrop : (trimSpace line).data.dropWhile (fun c => c != ' ') with
    | nil => simp only [hdrop, hnone]
    | cons c rest => simp only [hdrop, hnone]

/-- Witness for C1 (amended): the aliased branch at a concrete table and
line. -/
theorem expandCommand_spec_witness :
    mapLookup [("foo", "bar baz")]
        ⟨(trimSpace "foo rest").data.takeWhile (fun c => c != ' ')⟩ =
      some "bar baz" ∧
    AliasManager.ExpandCommand ⟨[("foo", "bar baz")], 10⟩ "foo rest" =
      "bar baz" ++ ⟨(trimSpace "foo rest").data.dropWhile (fun c => c != ' ')⟩ :=
  ⟨by decide,
   (expandCommand_spec ⟨[("foo", "bar baz")], 10⟩ "foo rest").1 "bar baz" (by decide)⟩

/-! #### Alias-table invariants (C2, C9) -/

theorem mem_mapSet (m : AliasMap) (k v : String) (p : String × String)
    (h : p ∈ mapSet m k v) : p ∈ m ∨ p = (k, v) := by
  induction m with
  | nil =>
    simp [mapSet] at h
    exact Or.inr h
  | cons q rest ih =>
    obtain ⟨k₀, v₀⟩ := q
    simp only [mapSet] at h
    by_cases hk : k₀ = k
    · rw [if_pos hk] at h
      rcases List.mem_cons.mp h with h | h
      · exact Or.inr h
      · exact Or.inl (List.mem_cons_of_mem _ h)
    · rw [if_neg hk] at h
      rcases List.mem_cons.mp h with h | h
      · exact Or.inl (List.mem_cons.mpr (Or.inl h))
      · rcases ih h with h' | h'
        · exact Or.inl (List.mem_cons_of_mem _ h')
        · exact Or.inr h'

theorem mapSet_length_le (m : AliasMap) (k v : String) :
    (mapSet m k v).length ≤ m.length + 1 := by
  induction m with
  | nil => simp [mapSet]
  | cons q rest ih =>
    obtain ⟨k₀, v₀⟩ := q
    simp only [mapSet]
    split
    · simp
    · simpa using Nat.succ_le_succ ih

theorem mapSet_not_mem (m : AliasMap) (k v : String)
    (h : k ∉ m.map Prod.fst) : mapSet m k v = m ++ [(k, v)] := by
  induction m with
  | nil => rfl
  | cons q rest ih =>
    obtain ⟨k₀, v₀⟩ := q
    simp only [List.map_cons, List.mem_cons] at h
    push_neg at h
    simp only [mapSet]
    rw [if_neg (Ne.symm h.1), ih h.2]
    rfl

/-- Anatomy of a successful `AddAlias`: all three checks passed and the
result is the table with the new pair stored. -/
theorem addAlias_ok (am am' : AliasManager) (n c : String)
    (h : am.AddAlias n c = .ok am') :
    am' = { am with aliases := mapSet am.aliases n c } ∧
    am.aliases.length < am.maxCount ∧
    containsChar n ' ' = false ∧ containsChar n '.' = false := by
  unfold AliasManager.AddAlias at h
  split_ifs at h with h₁ h₂ h₃
  injection h with h
  subst h
  refine ⟨rfl, by omega, ?_, ?_⟩
  · simpa using (Bool.or_eq_false_iff.mp (by simpa using h₂)).1
  · simpa using (Bool.or_eq_false_iff.mp (by simpa using h₂)).2

theorem removeAlias_ok (am am' : AliasManager) (n : String)
    (h : am.RemoveAlias n = .ok am') :
    am' = { am with aliases := mapErase am.aliases n } := by
  unfold AliasManager.RemoveAlias at h
  split_ifs at h
  injection h with h
  exact h.symm

/-- Stored names contain neither a space nor a period. -/
def aliasNamesValid (m : AliasMap) : Prop :=
  ∀ p ∈ m, containsChar p.1 ' ' = false ∧ containsChar p.1 '.' = false

theorem applyAliasOp_valid (am : AliasManager) (op : AliasOp)
    (hop : op.isLoad = false) (h : aliasNamesValid am.aliases) :
    aliasNamesValid (applyAliasOp am op).aliases := by
  cases op with
  | load content => simp [AliasOp.isLoad] at hop
  | add n c =>
    simp only [applyAliasOp]
    cases hE : am.AddAlias n c with
    | error e => exact h
    | ok am' =>
      obtain ⟨ham', _, hsp, hdot⟩ := addAlias_ok am am' n c hE
      subst ham'
      intro p hp
      rcases mem_mapSet _ _ _ _ hp with hp | hp
      · exact h p hp
      · subst hp
        exact ⟨hsp, hdot⟩
  | remove n =>
    simp only [applyAliasOp]
    cases hE : am.RemoveAlias n with
    | error e => exact h
    | ok am' =>
      have ham' := removeAlias_ok am am' n hE
      subst ham'
      intro p hp
      exact h p (List.mem_of_mem_filter hp)

theorem runAliasOps_valid (ops : List AliasOp)
    (hops : ∀ op ∈ ops, op.isLoad = false) :
    ∀ am : AliasManager, aliasNamesValid am.aliases →
      aliasNamesValid (runAliasOps am ops).aliases := by
  induction ops with
  | nil => exact fun am h => h
  | cons op rest ih =>
    intro am h
    exact ih (fun o ho => hops o (List.mem_cons_of_mem _ ho)) _
      (applyAliasOp_valid am op (hops op (List.mem_cons_self _ _)) h)

/-- C2 counterexample: the table operations themselves never consult the
reserved-keyword list — `AddAlias` happily stores the reserved keyword
`help` as an alias name, so the reserved-keyword part of the claimed
invariant does not hold for `Add` sequences. -/
theorem addAlias_accepts_reserved_keyword :
    (NewAliasManager 50).AddAlias "help" "x" =
      .ok { aliases := [("help", "x")], maxCount := 50 } ∧
    IsReservedKeyword "help" = true := ⟨rfl, by decide⟩

/-- C2 (amended): every sequence of `Add` and `Remove` operations (no
`Load`) preserves the name invariant that stored alias names contain
neither a space nor a period.  The reserved-keyword exclusion is enforced
only by the TUI command handler before it calls `Add`, not by the table
operations, and `Load` restores file records without re-validating
names. -/
theorem aliasTable_names_valid (maxCount : Nat) (ops : List AliasOp)
    (hops : ∀ op ∈ ops, op.isLoad = false) :
    ∀ p ∈ (runAliasOps (NewAliasManager maxCount) ops).aliases,
      containsChar p.1 ' ' = false ∧ containsChar p.1 '.' = false :=
  runAliasOps_valid ops hops (NewAliasManager maxCount)
    (fun p hp => absurd hp (by simp [NewAliasManager]))

/-- Witness for C2 (amended): a concrete add/remove/add run, instantiated
at a concrete stored pair. -/
theorem aliasTable_names_valid_witness :
    containsChar ("ls" : String) ' ' = false ∧
    containsChar ("ls" : String) '.' = false :=
  aliasTable_names_valid 10
    [.add "ls" "service.list", .add "a b" "x", .remove "missing"]
    (by decide) ("ls", "service.list") (by decide)

theorem loadFold_length (maxCount : Nat) (recs : List (String × String)) :
    ∀ m : AliasMap, m.length ≤ maxCount →
      (loadFold maxCount m recs).length ≤ maxCount := by
  induction recs with
  | nil => intro m hm; simpa [loadFold] using hm
  | cons r rest ih =>
    intro m hm
    obtain ⟨n, v⟩ := r
    simp only [loadFold]
    split
    · exact ih _ (le_trans (mapSet_length_le m n v) (by omega))
    · exact ih _ hm

theorem loadFold_full (maxCount : Nat) (recs : List (String × String))
    (m : AliasMap) (h : ¬ m.length < maxCount) :
    loadFold maxCount m recs = m := by
  induction recs with
  | nil => rfl
  | cons r rest ih =>
    obtain ⟨n, v⟩ := r
    simp only [loadFold]
    rw [if_neg h]
    exact ih

theorem loadFold_take (maxCount : Nat) (recs : List (String × String)) :
    ∀ m : AliasMap, (m.map Prod.fst ++ recs.map Prod.fst).Nodup →
      loadFold maxCount m recs = m ++ recs.take (maxCount - m.length) := by
  induction recs with
  | nil => intro m _; simp [loadFold]
  | cons r rest ih =>
    intro m hnd
    obtain ⟨n, v⟩ := r
    simp only [loadFold]
    by_cases hlt : m.length < maxCount
    · rw [if_pos hlt]
      have hn : n ∉ m.map Prod.fst := by
        rw [List.nodup_append] at hnd
        intro hmem
        exact hnd.2.2 hmem (by simp)
      rw [mapSet_not_mem m n v hn]
      rw [ih (m ++ [(n, v)]) (by simpa using hnd)]
      have hlen : maxCount - m.length = (maxCount - ((m ++ [(n, v)]).length)) + 1 := by
        simp only [List.length_append, List.length_cons, List.length_nil]
        omega
      rw [hlen, List.take_succ_cons]
      simp
    · rw [if_neg hlt]
      have h0 : maxCount - m.length = 0 := by omega
      rw [loadFold_full maxCount rest m hlt, h0]
      simp

theorem applyAliasOp_maxCount (am : AliasManager) (op : AliasOp) :
    (applyAliasOp am op).maxCount = am.maxCount := by
  cases op with
  | add n c =>
    simp only [applyAliasOp]
    cases hE : am.AddAlias n c with
    | error e => rfl
    | ok am' => rw [(addAlias_ok am am' n c hE).1]
  | remove n =>
    simp only [applyAliasOp]
    cases hE : am.RemoveAlias n with
    | error e => rfl
    | ok am' => rw [removeAlias_ok am am' n hE]
  | load content => rfl

theorem applyAliasOp_length (am : AliasManager) (op : AliasOp)
    (h : am.aliases.length ≤ am.maxCount) :
    (applyAliasOp am op).aliases.length ≤ am.maxCount := by
  cases op with
  | add n c =>
    simp only [applyAliasOp]
    cases hE : am.AddAlias n c with
    | error e => exact h
    | ok am' =>
      obtain ⟨ham', hlen, -, -⟩ := addAlias_ok am am' n c hE
      subst ham'
      exact le_trans (mapSet_length_le am.aliases n c) (by omega)
  | remove n =>
    simp only [applyAliasOp]
    cases hE : am.RemoveAlias n with
    | error e => exact h
    | ok am' =>
      rw [removeAlias_ok am am' n hE]
      exact le_trans (List.length_filter_le _ _) h
  | load content =>
    exact loadFold_length am.maxCount _ [] (by simp)

theorem runAliasOps_length (ops : List AliasOp) :
    ∀ am : AliasManager, am.aliases.length ≤ am.maxCount →
      (runAliasOps am ops).aliases.length ≤ (runAliasOps am ops).maxCount := by
  induction ops with
  | nil => exact fun am h => h
  | cons op rest ih =>
    intro am h
    have h' := applyAliasOp_length am op h
    rw [← applyAliasOp_maxCount am op] at h'
    exact ih _ h'

/-- C9: the alias table never outgrows its capacity — after any sequence
of `Add`, `Remove` and `Load` operations on a table created with capacity
`maxCount`, at most `maxCount` aliases are stored; `Add` at capacity fails
with the capacity error; and a `Load` of a file with distinct alias names
keeps exactly the first `maxCount` records in insertion order (silent
truncation). -/
theorem aliasTable_capacity (maxCount : Nat) (ops : List AliasOp) :
    (runAliasOps (NewAliasManager maxCount) ops).aliases.length ≤ maxCount ∧
    (∀ am : AliasManager, am.aliases.length ≥ am.maxCount → ∀ n c,
        am.AddAlias n c = .error "maximum number of aliases reached") ∧
    (∀ (am : AliasManager) (content : String),
        (((goSplitLines content).filterMap parseAliasLine).map Prod.fst).Nodup →
        (am.LoadAliases content).aliases =
          ((goSplitLines content).filterMap parseAliasLine).take am.maxCount) := by
  refine ⟨?_, ?_, ?_⟩
  · have h := runAliasOps_length ops (NewAliasManager maxCount) (by simp [NewAliasManager])
    have hmax : (runAliasOps (NewAliasManager maxCount) ops).maxCount = maxCount := by
      induction ops generalizing maxCount with
      | nil => rfl
      | cons op rest ih =>
        show (runAliasOps (applyAliasOp (NewAliasManager maxCount) op) rest).maxCount = maxCount
        have hstep : ∀ am' : AliasManager, ∀ o : List AliasOp,
            (runAliasOps am' o).maxCount = am'.maxCount := by
          intro am' o
          induction o generalizing am' with
          | nil => rfl
          | cons x xs ihx =>
            show (runAliasOps (applyAliasOp am' x) xs).maxCount = am'.maxCount
            rw [ihx, applyAliasOp_maxCount]
        rw [hstep, applyAliasOp_maxCount]
        rfl
    rw [hmax] at h
    exact h
  · intro am hge n c
    unfold AliasManager.AddAlias
    rw [if_pos hge]
  · intro am content hnd
    show loadFold am.maxCount [] _ = _
    rw [loadFold_take am.maxCount _ [] (by simpa using hnd)]
    simp

/-- Witness for C9: a three-record file loaded into a capacity-2 table
keeps the first two records; `Add` on a full table reports the capacity
error. -/
theorem aliasTable_capacity_witness :
    (runAliasOps (NewAliasManager 2) [.load "a=1\nb=2\nc=3"]).aliases.length ≤ 2 ∧
    AliasManager.AddAlias ⟨[("a", "1"), ("b", "2")], 2⟩ "d" "x" =
      .error "maximum number of aliases reached" ∧
    ((NewAliasManager 2).LoadAliases "a=1\nb=2\nc=3").aliases =
      ((goSplitLines "a=1\nb=2\nc=3").filterMap parseAliasLine).take 2 := by
  have t := aliasTable_capacity 2 [.load "a=1\nb=2\nc=3"]
  exact ⟨t.1, t.2.1 ⟨[("a", "1"), ("b", "2")], 2⟩ (by decide) "d" "x",
         t.2.2 (NewAliasManager 2) "a=1\nb=2\nc=3" (by decide)⟩

/-! #### Trimming is idempotent -/

theorem dropWhile_idem (p : Char → Bool) (l : List Char) :
    (l.dropWhile p).dropWhile p = l.dropWhile p := by
  induction l with
  | nil => rfl
  | cons c cs ih =>
    by_cases hc : p c = true
    · simp [List.dropWhile_cons, hc, ih]
    · simp [List.dropWhile_cons, hc]

theorem length_dropWhile_le' (p : Char → Bool) (l : List Char) :
    (l.dropWhile p).length ≤ l.length := by
  induction l with
  | nil => simp
  | cons c cs ih =>
    by_cases hc : p c = true
    · simp only [List.dropWhile_cons, if_pos hc]
      exact le_trans ih (by simp)
    · simp [List.dropWhile_cons, hc]

theorem dropWhile_suffix' (p : Char → Bool) (l : List Char) :
    l.dropWhile p <:+ l := by
  induction l with
  | nil => exact List.suffix_refl _
  | cons c cs ih =>
    by_cases hc : p c = true
    · simp only [List.dropWhile_cons, if_pos hc]
      exact ih.trans (List.suffix_cons c cs)
    · simp [List.dropWhile_cons, hc]

theorem dropWhile_eq_self_of_prefix (p : Char → Bool) (l l' : List Char)
    (h : l.dropWhile p = l) (hpre : l' <+: l) : l'.dropWhile p = l' := by
  cases l' with
  | nil => rfl
  | cons a t =>
    obtain ⟨rest, hrest⟩ := hpre
    have hpa : p a = false := by
      by_contra hpa
      rw [Bool.not_eq_false] at hpa
      rw [← hrest, List.cons_append, List.dropWhile_cons, if_pos hpa] at h
      have hle := length_dropWhile_le' p (t ++ rest)
      rw [h] at hle
      simp at hle
    rw [List.dropWhile_cons, if_neg (by simp [hpa])]

theorem trimSpace_idem (s : String) : trimSpace (trimSpace s) = trimSpace s := by
  unfold trimSpace trimLeftChars trimRightChars
  show String.mk _ = String.mk _
  have hy : ∀ l : List Char, (l.dropWhile goIsSpace).dropWhile goIsSpace =
      l.dropWhile goIsSpace := dropWhile_idem goIsSpace
  set l := s.data
  set y := l.dropWhile goIsSpace with hy'
  set z := (y.reverse.dropWhile goIsSpace).reverse with hz
  have hzpre : z <+: y := by
    have h₁ : y.reverse.dropWhile goIsSpace <:+ y.reverse :=
      dropWhile_suffix' goIsSpace y.reverse
    have h₂ := List.reverse_prefix.mpr h₁
    rwa [List.reverse_reverse] at h₂
  have hstepA : z.dropWhile goIsSpace = z :=
    dropWhile_eq_self_of_prefix goIsSpace y z (hy l) hzpre
  have hzrev : z.reverse = y.reverse.dropWhile goIsSpace := by
    rw [hz, List.reverse_reverse]
  have hstepB : z.reverse.dropWhile goIsSpace = z.reverse := by
    rw [hzrev]
    exact hy y.reverse
  rw [hstepA, hstepB, List.reverse_reverse]

/-! #### History invariants (C3) -/

/-- The `CommandHistory` data invariant: bounded, no adjacent duplicates,
every stored entry trimmed and non-blank. -/
def historyInv (h : CommandHistory) : Prop :=
  h.entries.length ≤ h.maxEntries ∧
  h.entries.Chain' (· ≠ ·) ∧
  ∀ e ∈ h.entries, trimSpace e = e ∧ e ≠ ""

/-- The entry list stored by a successful `Add`: append, then evict from
the front when over capacity. -/
def recordedEntries (h : CommandHistory) (c' : String) : List String :=
  if (h.entries ++ [c']).length > h.maxEntries then
    (h.entries ++ [c']).drop ((h.entries ++ [c']).length - h.maxEntries)
  else h.entries ++ [c']

/-- `Add` with its local lets flattened. -/
theorem add_eq (h : CommandHistory) (c : String) :
    h.Add c =
      if trimSpace c = "" then h
      else if h.entries.length > 0 ∧ h.entries.getLast? = some (trimSpace c) then h
      else { h with entries := recordedEntries h (trimSpace c),
                    currentIndex := ((recordedEntries h (trimSpace c)).length : Int) } :=
  rfl

theorem add_blank_noop (h : CommandHistory) (c : String)
    (hc : trimSpace c = "") : h.Add c = h := by
  rw [add_eq, if_pos hc]

theorem add_preserves_inv (h : CommandHistory) (c : String)
    (hinv : historyInv h) : historyInv (h.Add c) := by
  obtain ⟨hlen, hchain, hmem⟩ := hinv
  rw [add_eq]
  split_ifs with hblank hdup
  · exact ⟨hlen, hchain, hmem⟩
  · exact ⟨hlen, hchain, hmem⟩
  · have hlast : ∀ x ∈ h.entries.getLast?, x ≠ trimSpace c := by
      intro x hx hxc
      subst hxc
      apply hdup
      constructor
      · cases hE : h.entries with
        | nil => rw [hE] at hx; simp at hx
        | cons a as => simp [hE]
      · exact hx
    have hchain' : (h.entries ++ [trimSpace c]).Chain' (· ≠ ·) := by
      rw [List.chain'_append]
      refine ⟨hchain, List.chain'_singleton _, ?_⟩
      intro x hx y hy
      simp only [List.head?_cons, Option.mem_some_iff] at hy
      subst hy
      exact hlast x hx
    have hmem' : ∀ e ∈ h.entries ++ [trimSpace c], trimSpace e = e ∧ e ≠ "" := by
      intro e he
      rcases List.mem_append.mp he with he | he
      · exact hmem e he
      · simp only [List.mem_singleton] at he
        subst he
        exact ⟨trimSpace_idem c, hblank⟩
    unfold historyInv recordedEntries
    by_cases hover : (h.entries ++ [trimSpace c]).length > h.maxEntries
    · rw [if_pos hover]
      refine ⟨?_, hchain'.drop _, ?_⟩
      · simp only [List.length_drop]
        omega
      · intro e he
        exact hmem' e (List.drop_subset _ _ he)
    · rw [if_neg hover]
      refine ⟨?_, hchain', hmem'⟩
      simp only [List.length_append, List.length_cons, List.length_nil] at hover ⊢
      omega

theorem foldl_add_inv (cmds : List String) :
    ∀ h : CommandHistory, historyInv h →
      historyInv (cmds.foldl CommandHistory.Add h) := by
  induction cmds with
  | nil => exact fun h hinv => hinv
  | cons c rest ih => exact fun h hinv => ih _ (add_preserves_inv h c hinv)

theorem add_maxEntries (h : CommandHistory) (c : String) :
    (h.Add c).maxEntries = h.maxEntries := by
  rw [add_eq]
  split_ifs <;> rfl

theorem foldl_add_maxEntries (cmds : List String) :
    ∀ h : CommandHistory,
      (cmds.foldl CommandHistory.Add h).maxEntries = h.maxEntries := by
  induction cmds with
  | nil => exact fun _ => rfl
  | cons c rest ih =>
    intro h
    rw [List.foldl_cons, ih, add_maxEntries]

theorem mem_of_getLast? (l : List String) (x : String)
    (h : l.getLast? = some x) : x ∈ l := by
  cases hE : l with
  | nil => rw [hE] at h; simp at h
  | cons a as =>
    rw [hE] at h
    exact (List.mem_of_mem_getLast? h)

/-- C3: over every `Record` (`Add`) sequence on a history created with
capacity `maxEntries`, the stored sequence never exceeds `maxEntries`
entries, no two adjacent entries are equal, blank input and input equal to
the most recent entry leave the sequence unchanged, and any eviction
removes entries from the front (the result is a tail segment of the old
sequence plus the new entry — the oldest entries go first). -/
theorem history_record_invariants (maxEntries : Nat) (cmds : List String) :
    (cmds.foldl CommandHistory.Add (NewCommandHistory maxEntries)).entries.length
        ≤ maxEntries ∧
    (cmds.foldl CommandHistory.Add (NewCommandHistory maxEntries)).entries.Chain'
        (· ≠ ·) ∧
    (∀ c, trimSpace c = "" →
      ((cmds.foldl CommandHistory.Add (NewCommandHistory maxEntries)).Add c).entries =
        (cmds.foldl CommandHistory.Add (NewCommandHistory maxEntries)).entries) ∧
    (∀ c,
      (cmds.foldl CommandHistory.Add (NewCommandHistory maxEntries)).entries.getLast?
          = some c →
      ((cmds.foldl CommandHistory.Add (NewCommandHistory maxEntries)).Add c).entries =
        (cmds.foldl CommandHistory.Add (NewCommandHistory maxEntries)).entries) ∧
    (∀ c,
      ((cmds.foldl CommandHistory.Add (NewCommandHistory maxEntries)).Add c).entries =
          (cmds.foldl CommandHistory.Add (NewCommandHistory maxEntries)).entries ∨
      ∃ n,
        ((cmds.foldl CommandHistory.Add (NewCommandHistory maxEntries)).Add c).entries =
          ((cmds.foldl CommandHistory.Add (NewCommandHistory maxEntries)).entries
            ++ [trimSpace c]).drop n) := by
  have hinv : historyInv (cmds.foldl CommandHistory.Add (NewCommandHistory maxEntries)) :=
    foldl_add_inv cmds _ ⟨by simp [NewCommandHistory], by simp [NewCommandHistory],
      by simp [NewCommandHistory]⟩
  have hmax := foldl_add_maxEntries cmds (NewCommandHistory maxEntries)
  obtain ⟨hlen, hchain, hmem⟩ := hinv
  refine ⟨by rwa [hmax] at hlen, hchain, ?_, ?_, ?_⟩
  · intro c hc
    rw [add_blank_noop _ c hc]
  · intro c hlast
    have hcmem := mem_of_getLast? _ _ hlast
    obtain ⟨hct, hcne⟩ := hmem c hcmem
    have hpos : (cmds.foldl CommandHistory.Add (NewCommandHistory maxEntries)).entries.length > 0 := by
      cases hE : (cmds.foldl CommandHistory.Add (NewCommandHistory maxEntries)).entries with
      | nil => rw [hE] at hcmem; simp at hcmem
      | cons a as => simp [hE]
    rw [add_eq]
    rw [if_neg (by rw [hct]; exact hcne)]
    rw [if_pos ⟨hpos, by rw [hct]; exact hlast⟩]
  · intro c
    rw [add_eq]
    split_ifs with hblank hdup
    · exact Or.inl rfl
    · exact Or.inl rfl
    · unfold recordedEntries
      split_ifs with hover
      · exact Or.inr ⟨_, rfl⟩
      · exact Or.inr ⟨0, by simp⟩

/-- Witness for C3: a concrete run over capacity 2 with an eviction, a
blank input no-op, and an adjacent-duplicate no-op. -/
theorem history_record_invariants_witness :
    (["a", "b", "a", "c"].foldl CommandHistory.Add (NewCommandHistory 2)).entries.length
        ≤ 2 ∧
    ((["a", "b", "a", "c"].foldl CommandHistory.Add (NewCommandHistory 2)).Add "  ").entries =
      (["a", "b", "a", "c"].foldl CommandHistory.Add (NewCommandHistory 2)).entries ∧
    ((["a", "b", "a", "c"].foldl CommandHistory.Add (NewCommandHistory 2)).Add "c").entries =
      (["a", "b", "a", "c"].foldl CommandHistory.Add (NewCommandHistory 2)).entries := by
  have t := history_record_invariants 2 ["a", "b", "a", "c"]
  exact ⟨t.1, t.2.2.1 "  " (by decide), t.2.2.2.1 "c" (by decide)⟩

/-! #### History navigation (C7) -/

theorem commandHistory_ext (h₁ h₂ : CommandHistory)
    (he : h₁.entries = h₂.entries) (hm : h₁.maxEntries = h₂.maxEntries)
    (hi : h₁.currentIndex = h₂.currentIndex) (hp : h₁.savePath = h₂.savePath) :
    h₁ = h₂ := by
  cases h₁
  cases h₂
  simp_all

@[simp] theorem setCur_entries (h : CommandHistory) (x : Int) :
    ({ h with currentIndex := x } : CommandHistory).entries = h.entries := rfl

@[simp] theorem setCur_maxEntries (h : CommandHistory) (x : Int) :
    ({ h with currentIndex := x } : CommandHistory).maxEntries = h.maxEntries := rfl

@[simp] theorem setCur_currentIndex (h : CommandHistory) (x : Int) :
    ({ h with currentIndex := x } : CommandHistory).currentIndex = x := rfl

@[simp] theorem setCur_savePath (h : CommandHistory) (x : Int) :
    ({ h with currentIndex := x } : CommandHistory).savePath = h.savePath := rfl

/-- `Previous` with its local let flattened. -/
theorem previous_eq (h : CommandHistory) :
    h.Previous =
      if h.entries.length = 0 ∨ h.currentIndex ≤ 0 then (("", false), h)
      else (((h.entries.get? (h.currentIndex - 1).toNat).getD "", true),
            { h with currentIndex := h.currentIndex - 1 }) := rfl

/-- `Next` with its local let flattened. -/
theorem next_eq (h : CommandHistory) :
    h.Next =
      if h.entries.length = 0 ∨ h.currentIndex ≥ (h.entries.length : Int) then
        (("", false), h)
      else if h.currentIndex + 1 = (h.entries.length : Int) then
        (("", true), { h with currentIndex := h.currentIndex + 1 })
      else (((h.entries.get? (h.currentIndex + 1).toNat).getD "", true),
            { h with currentIndex := h.currentIndex + 1 }) := rfl

/-- From the past-the-end cursor, `j ≤ length` calls of `Previous` leave
everything but the cursor untouched and move the cursor back by `j`. -/
theorem prevN_eq (h : CommandHistory)
    (hcur : h.currentIndex = (h.entries.length : Int)) :
    ∀ j : Nat, j ≤ h.entries.length →
      prevN h j = { h with currentIndex := (h.entries.length : Int) - j } := by
  intro j
  induction j with
  | zero =>
    intro _
    simp only [prevN]
    apply commandHistory_ext <;> simp <;> omega
  | succ j ih =>
    intro hj
    have hj' : j ≤ h.entries.length := Nat.le_of_succ_le hj
    simp only [prevN]
    rw [ih hj', previous_eq]
    rw [if_neg (by simp only [setCur_entries, setCur_currentIndex]; omega)]
    apply commandHistory_ext <;> simp <;> omega

/-- After `k` `Previous` calls, `j ≤ k` calls of `Next` move the cursor
forward by `j`, again touching nothing else. -/
theorem nextN_eq (h : CommandHistory) (k : Nat)
    (hk1 : 1 ≤ k) (hk2 : k ≤ h.entries.length) :
    ∀ j : Nat, j ≤ k →
      nextN { h with currentIndex := (h.entries.length : Int) - k } j =
        { h with currentIndex := (h.entries.length : Int) - k + j } := by
  intro j
  induction j with
  | zero =>
    intro _
    simp only [nextN]
    apply commandHistory_ext <;> simp
  | succ j ih =>
    intro hj
    have hj' : j ≤ k := Nat.le_of_succ_le hj
    simp only [nextN]
    rw [ih hj', next_eq]
    rw [if_neg (by simp only [setCur_entries, setCur_currentIndex]; omega)]
    split_ifs with hend
    · apply commandHistory_ext <;> simp <;> omega
    · apply commandHistory_ext <;> simp <;> omega

/-- C7: from the past-the-end cursor, `k` `Previous` calls followed by `k`
`Next` calls return the history to exactly the original state, the final
boundary `Next` succeeds yielding the empty string, and one further `Next`
past the end fails. -/
theorem history_prev_next_roundtrip (h : CommandHistory) (k : Nat)
    (hcur : h.currentIndex = (h.entries.length : Int))
    (hk1 : 1 ≤ k) (hk2 : k ≤ h.entries.length) :
    nextN (prevN h k) k = h ∧
    (nextN (prevN h k) (k - 1)).Next.1 = ("", true) ∧
    (nextN (prevN h k) k).Next.1 = ("", false) := by
  have hprev := prevN_eq h hcur k hk2
  have hroundtrip : nextN (prevN h k) k = h := by
    rw [hprev, nextN_eq h k hk1 hk2 k le_rfl]
    apply commandHistory_ext <;> simp <;> omega
  refine ⟨hroundtrip, ?_, ?_⟩
  · rw [hprev, nextN_eq h k hk1 hk2 (k - 1) (Nat.sub_le k 1), next_eq]
    rw [if_neg (by simp only [setCur_entries, setCur_currentIndex]; omega)]
    rw [if_pos (by simp only [setCur_entries, setCur_currentIndex]; omega)]
  · rw [hroundtrip, next_eq]
    rw [if_pos (Or.inr (by omega))]

/-- Witness for C7 at a concrete two-entry history with `k = 2`. -/
theorem history_prev_next_roundtrip_witness :
    (nextN (prevN (⟨["a", "b"], 5, 2, ""⟩ : CommandHistory) 2) 2 =
        (⟨["a", "b"], 5, 2, ""⟩ : CommandHistory)) ∧
    (nextN (prevN (⟨["a", "b"], 5, 2, ""⟩ : CommandHistory) 2) 1).Next.1 =
        ("", true) ∧
    (nextN (prevN (⟨["a", "b"], 5, 2, ""⟩ : CommandHistory) 2) 2).Next.1 =
        ("", false) :=
  history_prev_next_roundtrip ⟨["a", "b"], 5, 2, ""⟩ 2 rfl (by decide) (by decide)

/-! #### Completion (C8) -/

theorem commonPrefTwo_prefix_left (a : List Char) :
    ∀ b, commonPrefTwo a b <+: a := by
  induction a with
  | nil => intro b; cases b <;> simp [commonPrefTwo]
  | cons x xs ih =>
    intro b
    cases b with
    | nil => simp [commonPrefTwo]
    | cons y ys =>
      simp only [commonPrefTwo]
      split_ifs with hxy
      · exact List.cons_prefix_cons.mpr ⟨rfl, ih ys⟩
      · exact List.nil_prefix

theorem commonPrefTwo_prefix_right (a : List Char) :
    ∀ b, commonPrefTwo a b <+: b := by
  induction a with
  | nil => intro b; cases b <;> simp [commonPrefTwo]
  | cons x xs ih =>
    intro b
    cases b with
    | nil => simp [commonPrefTwo]
    | cons y ys =>
      simp only [commonPrefTwo]
      split_ifs with hxy
      · exact List.cons_prefix_cons.mpr ⟨hxy, ih ys⟩
      · exact List.nil_prefix

theorem prefix_commonPrefTwo (p : List Char) :
    ∀ a b : List Char, p <+: a → p <+: b → p <+: commonPrefTwo a b := by
  induction p with
  | nil => exact fun a b _ _ => List.nil_prefix
  | cons c cs ih =>
    intro a b h₁ h₂
    cases a with
    | nil => exact absurd h₁ (by simp)
    | cons x xs =>
      cases b with
      | nil => exact absurd h₂ (by simp)
      | cons y ys =>
        obtain ⟨hcx, h₁'⟩ := List.cons_prefix_cons.mp h₁
        obtain ⟨hcy, h₂'⟩ := List.cons_prefix_cons.mp h₂
        subst hcx
        subst hcy
        simp only [commonPrefTwo, if_pos rfl]
        exact List.cons_prefix_cons.mpr ⟨rfl, ih xs ys h₁' h₂'⟩

theorem foldl_commonPref_spec (l : List String) :
    ∀ acc : List Char,
      ((l.foldl (fun pref s => commonPrefTwo pref s.data) acc <+: acc) ∧
       (∀ s ∈ l, l.foldl (fun pref s => commonPrefTwo pref s.data) acc <+: s.data)) ∧
      (∀ p : List Char, p <+: acc → (∀ s ∈ l, p <+: s.data) →
        p <+: l.foldl (fun pref s => commonPrefTwo pref s.data) acc) := by
  induction l with
  | nil =>
    intro acc
    refine ⟨⟨List.prefix_refl _, by simp⟩, ?_⟩
    intro p hp _
    simpa using hp
  | cons x xs ih =>
    intro acc
    simp only [List.foldl_cons]
    have ihx := ih (commonPrefTwo acc x.data)
    refine ⟨⟨?_, ?_⟩, ?_⟩
    · exact ihx.1.1.trans (commonPrefTwo_prefix_left acc x.data)
    · intro s hs
      rcases List.mem_cons.mp hs with hs | hs
      · subst hs
        exact ihx.1.1.trans (commonPrefTwo_prefix_right acc s.data)
      · exact ihx.1.2 s hs
    · intro p hpacc hpall
      exact ihx.2 p
        (prefix_commonPrefTwo p acc x.data hpacc (hpall x (List.mem_cons_self _ _)))
        (fun s hs => hpall s (List.mem_cons_of_mem _ hs))

/-- findCommonPrefix computes a common prefix of all its inputs, and the
longest one (every common prefix is a prefix of it). -/
theorem findCommonPref_spec (xs : List String) :
    (∀ s ∈ xs, (findCommonPref xs).data <+: s.data) ∧
    (xs ≠ [] → ∀ p : List Char,
      (∀ s ∈ xs, p <+: s.data) → p <+: (findCommonPref xs).data) := by
  match xs with
  | [] => simp [findCommonPref]
  | [x] =>
    refine ⟨?_, ?_⟩
    · intro s hs
      rcases List.mem_singleton.mp hs with rfl
      exact List.prefix_refl _
    · intro _ p hp
      exact hp x (List.mem_singleton.mpr rfl)
  | x :: y :: rest =>
    have hfold := foldl_commonPref_spec (y :: rest) x.data
    refine ⟨?_, ?_⟩
    · intro s hs
      rcases List.mem_cons.mp hs with hs | hs
      · subst hs
        exact hfold.1.1
      · exact hfold.1.2 s hs
    · intro _ p hp
      exact hfold.2 p (hp x (List.mem_cons_self _ _))
        (fun s hs => hp s (List.mem_cons_of_mem _ hs))

theorem mem_trimSpace (s : String) (c : Char)
    (h : c ∈ (trimSpace s).data) : c ∈ s.data := by
  have h' : c ∈ trimRightChars (trimLeftChars s.data) := h
  unfold trimRightChars trimLeftChars at h'
  rw [List.mem_reverse] at h'
  have h₁ := (dropWhile_suffix' goIsSpace _).subset h'
  rw [List.mem_reverse] at h₁
  exact (dropWhile_suffix' goIsSpace _).subset h₁

theorem contains_iff_mem_chars (l : List Char) (a : Char) :
    l.contains a = true ↔ a ∈ l := by
  simp [List.contains]

theorem containsChar_trimSpace_false (s : String) (ch : Char)
    (h : containsChar s ch = false) : containsChar (trimSpace s) ch = false := by
  by_contra hc
  rw [Bool.not_eq_false] at hc
  have hmem : ch ∈ (trimSpace s).data := (contains_iff_mem_chars _ _).mp hc
  have hmem' : ch ∈ s.data := mem_trimSpace s ch hmem
  have htrue : containsChar s ch = true := (contains_iff_mem_chars s.data ch).mpr hmem'
  rw [h] at htrue
  exact Bool.false_ne_true htrue

/-- C8 counterexample: `Complete` matches the *trimmed* input against the
vocabulary, so a vocabulary entry that has the raw input `" x"` as a prefix
is not returned — instead the remote fallback handler is consulted. -/
theorem complete_trims_before_matching :
    trimSpace " x" ≠ "" ∧
    containsChar " x" '.' = false ∧
    goHasPref " x" " x" = true ∧
    (AutoCompleter.Complete ⟨[" x"], []⟩
        (some (fun _ => ⟨["srv"], "srv", false⟩)) " x").1.1 ≠ [" x"] ∧
    (AutoCompleter.Complete ⟨[" x"], []⟩
        (some (fun _ => ⟨["srv"], "srv", false⟩)) " x").2.2 ≠ [] := by
  refine ⟨by decide, by decide, by decide, ?_, ?_⟩ <;> decide

/-- C8 (amended): `Complete` first trims the input.  For every input whose
trimmed form is non-blank and free of the service separator, if any local
vocabulary entry has the trimmed input as a prefix then `Complete` returns
exactly those local matches together with their longest common prefix and
passes nothing to the remote fallback handler; `Complete("")` returns a
suggestion set containing the full local vocabulary; and
`Complete("connect")` returns exactly `(["connect"], "connect")` with no
remote consultation. -/
theorem complete_local_spec (ac : AutoCompleter)
    (fb : Option (String → FallbackResult)) (text : String)
    (hne : trimSpace text ≠ "") (hdot : containsChar text '.' = false) :
    ((ac.localCommands.filter (fun cmd => goHasPref (trimSpace text) cmd)) ≠ [] →
      (ac.Complete fb text).1.1 =
        ac.localCommands.filter (fun cmd => goHasPref (trimSpace text) cmd) ∧
      (∀ s ∈ ac.localCommands.filter (fun cmd => goHasPref (trimSpace text) cmd),
        ((ac.Complete fb text).1.2).data <+: s.data) ∧
      (∀ p : List Char,
        (∀ s ∈ ac.localCommands.filter (fun cmd => goHasPref (trimSpace text) cmd),
          p <+: s.data) → p <+: ((ac.Complete fb text).1.2).data) ∧
      (ac.Complete fb text).2.2 = []) ∧
    (∀ cmd ∈ ac.localCommands, cmd ∈ (ac.Complete fb "").1.1) ∧
    NewAutoCompleter.Complete fb "connect" =
      ((["connect"], "connect"), NewAutoCompleter, []) := by
  refine ⟨?_, ?_, ?_⟩
  · intro hmatches
    have hdot' := containsChar_trimSpace_false text '.' hdot
    have hlen : (ac.localCommands.filter
        (fun cmd => goHasPref (trimSpace text) cmd)).length > 0 :=
      List.length_pos.mpr hmatches
    simp only [AutoCompleter.Complete]
    rw [if_neg hne, if_pos hdot', if_pos hlen]
    refine ⟨rfl, ?_, ?_, rfl⟩
    · exact fun s hs => (findCommonPref_spec _).1 s hs
    · exact fun p hp => (findCommonPref_spec _).2 hmatches p hp
  · intro cmd hcmd
    simp only [AutoCompleter.Complete]
    rw [if_pos (show trimSpace "" = "" from rfl)]
    cases fb with
    | none => exact hcmd
    | some f => exact List.mem_append_left _ hcmd
  · rfl

/-- Witness for C8 (amended): completing `"conn"` against the standard
local vocabulary returns the local match and consults nothing remote. -/
theorem complete_local_spec_witness :
    (NewAutoCompleter.Complete none "conn").1.1 =
      NewAutoCompleter.localCommands.filter
        (fun cmd => goHasPref (trimSpace "conn") cmd) ∧
    (NewAutoCompleter.Complete none "conn").2.2 = [] := by
  have t := complete_local_spec NewAutoCompleter none "conn" (by decide) (by decide)
  have t1 := t.1 (by decide)
  exact ⟨t1.1, t1.2.2.2⟩

end Nexuflex
